import Mathlib

/-!
Verification of the coda real-time medical-coding pipeline.

Shallow embedding of the core components of the repository:

* `src/coda/dialogue/__init__.py` — `AudioProcessor` (streaming chunk window);
* `src/coda/app/server.py` — the per-session pending-inference-task table with
  oldest-drop admission control, and the session termination handlers;
* `src/coda/grounding/icd10_rag_grounder/icd10_rag_extraction/retriever.py` —
  `ICD10Retriever.retrieve`;
* `.../annotator.py` — `find_evidence_spans`;
* `.../reranker.py` — the local post-processing of `CodeReranker.rerank`;
* `.../extractor.py` — the local validation step of `DiseaseExtractor.extract`;
* `.../utils.py` — `validate_icd10_code`.

Machine floats of the source are modelled as `ℚ`, Python strings as `List Char`
(with `str.lower` modelled character-wise via `Char.toLower`, which agrees with
Python on ASCII), and NumPy int16 sample arrays as `List Int`.  External
services (the embedding model, the LLM, difflib's `SequenceMatcher.ratio`) are
parameters of the embedded functions: the theorems below are about the local
algorithmic content, quantified over the external collaborators' answers.
-/

namespace Coda

/-! ## AudioProcessor (`src/coda/dialogue/__init__.py`, lines 14-56) -/

/-- State of `AudioProcessor`: construction parameters and the sample buffer. -/
structure AudioState where
  sampleRate : Nat
  chunkDuration : Nat
  buffer : List Int
deriving DecidableEq, Repr

/-- `AudioProcessor.__init__`: `self.audio_buffer = np.array([], dtype=np.int16)`. -/
def mkAudioProcessor (sampleRate chunkDuration : Nat) : AudioState :=
  ⟨sampleRate, chunkDuration, []⟩

/-- `self.chunk_size = sample_rate * chunk_duration`. -/
def AudioState.chunkSize (s : AudioState) : Nat :=
  s.sampleRate * s.chunkDuration

/-- `overlap_size = int(self.sample_rate * 0.5)`; exact for every realistic
sample rate, `int` truncation = `Nat` division by 2. -/
def AudioState.overlapSize (s : AudioState) : Nat :=
  s.sampleRate / 2

/-- `AudioProcessor.add_audio`: append the decoded samples to the buffer and
report whether a full chunk is available. -/
def addAudio (s : AudioState) (data : List Int) : Bool × AudioState :=
  let s' : AudioState := { s with buffer := s.buffer ++ data }
  (decide (s'.chunkSize ≤ s'.buffer.length), s')

/-- `AudioProcessor.get_chunk`: emit the first `chunk_size` samples and keep the
trailing `overlap_size` samples, i.e. `self.audio_buffer[self.chunk_size -
overlap_size:]`; `None` when the buffer is short.  The Python method returns the
bare `np.ndarray` chunk — there is no chunk id or timestamp in the return
value. -/
def getChunk (s : AudioState) : Option (List Int) × AudioState :=
  if s.chunkSize ≤ s.buffer.length then
    (some (s.buffer.take s.chunkSize),
      { s with buffer := s.buffer.drop (s.chunkSize - s.overlapSize) })
  else
    (none, s)

/-- `AudioProcessor.clear_buffer`. -/
def clearBuffer (s : AudioState) : AudioState :=
  { s with buffer := [] }

/-! ## Session pending-task table (`src/coda/app/server.py`)

`pending_chunks : Dict[str, asyncio.Task]` keeps insertion order (Python dict),
so we model it as the list of chunk ids in insertion order.  `cancelled`
records every id whose task had `.cancel()` called on it, `evicted` the ids
dropped by the backpressure branch (each eviction also logs a warning). -/

/-- `MAX_PENDING_CHUNKS = 3` (server.py line 32). -/
def MAX_PENDING_CHUNKS : Nat := 3

structure SessionState where
  pending : List String
  cancelled : List String
  evicted : List String
deriving DecidableEq, Repr

def initSession : SessionState := ⟨[], [], []⟩

/-- Lines 115-123: at the top of every loop iteration, if the table is at
capacity, cancel and delete `next(iter(pending_chunks))` — the first-inserted
(oldest) entry — and surface a warning. -/
def evictIfFull (s : SessionState) : SessionState :=
  if MAX_PENDING_CHUNKS ≤ s.pending.length then
    match s.pending with
    | [] => s
    | oldest :: rest =>
        { pending := rest
          cancelled := s.cancelled ++ [oldest]
          evicted := s.evicted ++ [oldest] }
  else s

/-- The `finally` block of `process_inference` (lines 98-101): a finishing task
removes its own id from the table if still present. -/
def completeTask (s : SessionState) (id : String) : SessionState :=
  { s with pending := s.pending.filter (fun p => p ≠ id) }

/-- One iteration of the `while True` session loop (lines 113-157): the
capacity check runs first; the awaits between the check and the dispatch
(receive, transcribe, send) can let previously dispatched tasks finish
(`completions`); if the iteration produces a transcript, the new task is
inserted at the end of the table (`dispatch`). -/
structure LoopIter where
  completions : List String
  dispatch : Option String

def runIter (s : SessionState) (it : LoopIter) : SessionState :=
  let s1 := evictIfFull s
  let s2 := it.completions.foldl completeTask s1
  match it.dispatch with
  | some id => { s2 with pending := s2.pending ++ [id] }
  | none => s2

def runSession (iters : List LoopIter) : SessionState :=
  iters.foldl runIter initSession

/-- How the session loop ends: `WebSocketDisconnect` (line 159) or any other
exception (line 167). -/
inductive TermReason where
  | disconnect
  | otherError
deriving DecidableEq

/-- The exception handlers of `websocket_endpoint` (lines 159-176).  Only the
`WebSocketDisconnect` branch cancels the pending tasks and clears the table;
the generic `except Exception` branch sends an error message and clears the
audio buffer, leaving `pending_chunks` untouched. -/
def onTermination (s : SessionState) (a : AudioState) (r : TermReason) :
    SessionState × AudioState :=
  match r with
  | .disconnect =>
      ({ s with pending := [], cancelled := s.cancelled ++ s.pending },
        clearBuffer a)
  | .otherError => (s, clearBuffer a)

/-! ## ICD10Retriever.retrieve (`.../icd10_rag_extraction/retriever.py`, 47-106)

The embedding of the query and the cosine products against the stored matrix
are produced by external models; `retrieve` is embedded as a function of the
resulting similarity row `sims` (one rational per embedding-matrix row) and of
the loaded code index / definitions table.  NumPy's `argsort` is modelled as a
stable ascending sort (ties by position), the behaviour of its insertion-sort
kind; `similarities[valid_indices].argsort()` followed by
`valid_indices[top_indices]` is then exactly a stable sort of `valid_indices`
by similarity, i.e. a sort by the lexicographic key (similarity, row index). -/

/-- One row of `definitions_data`: the optional `name` / `definition` fields. -/
structure CodeMeta where
  nameField : Option String
  defField : Option String

/-- One element of the returned list (lines 99-104). -/
structure RetrievedCand where
  code : String
  similarity : ℚ
  name : String
  definition : String
deriving DecidableEq, Repr

/-- `valid_indices = np.where(similarities >= min_similarity)[0]` — the row
indices passing the threshold, in ascending row order. -/
def validIndices (sims : Nat → ℚ) (n : Nat) (minSim : ℚ) : List Nat :=
  (List.range n).filter (fun i => minSim ≤ sims i)

/-- Lexicographic comparison used to model the stable ascending `argsort`:
by similarity, ties by row index. -/
def simLe (sims : Nat → ℚ) (i j : Nat) : Prop :=
  sims i < sims j ∨ (sims i = sims j ∧ i ≤ j)

instance (sims : Nat → ℚ) : DecidableRel (simLe sims) := fun i j =>
  inferInstanceAs (Decidable (sims i < sims j ∨ (sims i = sims j ∧ i ≤ j)))

/-- Python slicing `a[-top_k:]` (line 88), for `top_k` of either sign:
a negative slice start `-(top_k)` clamps to `max(len - top_k, 0)`; a
non-negative start (when `top_k ≤ 0`) drops the first `-top_k` elements;
in particular `top_k = 0` yields `a[0:]`, the whole list. -/
def pySliceLast (k : Int) (l : List α) : List α :=
  if 0 < k then l.drop (l.length - k.toNat) else l.drop (-k).toNat

/-- Row indices of the returned candidates, in return order: threshold filter,
stable ascending argsort, `[-top_k:]`, reverse (lines 82-89). -/
def retrieveIndices (sims : Nat → ℚ) (n : Nat) (topK : Int) (minSim : ℚ) :
    List Nat :=
  (pySliceLast topK
      (List.insertionSort (simLe sims) (validIndices sims n minSim))).reverse

/-- Lines 92-104: build one result row; missing metadata degrades to the
placeholder name `"Code: <code>"` and the empty definition. -/
def mkRetrieved (sims : Nat → ℚ) (idxToCode : Nat → String)
    (meta : String → Option CodeMeta) (i : Nat) : RetrievedCand :=
  let code := idxToCode i
  { code := code
    similarity := sims i
    name := ((meta code).bind CodeMeta.nameField).getD ("Code: " ++ code)
    definition := ((meta code).bind CodeMeta.defField).getD "" }

/-- `ICD10Retriever.retrieve` after the external embedding step.  The
`not clinical_text.strip()` guard and the `len(valid_indices) == 0` early
return both produce `[]`, which the general path also produces, so they are
not modelled separately; blank-text behaviour is outside the claims below. -/
def retrieve (sims : Nat → ℚ) (idxToCode : Nat → String)
    (meta : String → Option CodeMeta) (n : Nat) (topK : Int) (minSim : ℚ) :
    List RetrievedCand :=
  (retrieveIndices sims n topK minSim).map (mkRetrieved sims idxToCode meta)

/-! ## find_evidence_spans (`.../icd10_rag_extraction/annotator.py`, 30-146)

Python strings are embedded as `List Char`.  `str.lower()` is modelled
character-wise (`Char.toLower`, which matches Python on ASCII), `str.strip()`
and `str.split()` / `re.finditer(r'\S+', ...)` use `Char.isWhitespace`.
`difflib.SequenceMatcher(None, a, b).ratio()` is an external similarity oracle
and is a parameter `simFn` of the embedding; the claims about this function
concern the control flow around it, not its value. -/

def lowerL (s : List Char) : List Char := s.map Char.toLower

/-- `str.strip()`: drop whitespace from both ends. -/
def stripL (s : List Char) : List Char :=
  ((s.dropWhile Char.isWhitespace).reverse.dropWhile Char.isWhitespace).reverse

/-- `haystack.find(needle)` (Python `str.find`, modelled as `Option`): index
of the first occurrence of `needle`. -/
def findSub (needle : List Char) : List Char → Option Nat
  | [] => if needle.isEmpty then some 0 else none
  | c :: t =>
      if needle.isPrefixOf (c :: t) then some 0
      else (findSub needle t).map (fun i => i + 1)

/-- `re.finditer(r'\S+', text)` with `(m.start(), m.end())`: the character
spans of the maximal runs of non-whitespace, computed by a left-to-right
scan carrying the start offset of the word in progress. -/
def tokenizeAux (s : List Char) (pos : Nat) (wordStart : Option Nat) :
    List (Nat × Nat) :=
  match s with
  | [] =>
      match wordStart with
      | some st => [(st, pos)]
      | none => []
  | c :: t =>
      if c.isWhitespace then
        match wordStart with
        | some st => (st, pos) :: tokenizeAux t (pos + 1) none
        | none => tokenizeAux t (pos + 1) none
      else
        match wordStart with
        | some st => tokenizeAux t (pos + 1) (some st)
        | none => tokenizeAux t (pos + 1) (some pos)

def tokenize (s : List Char) : List (Nat × Nat) := tokenizeAux s 0 none

/-- Python slicing `s[a:b]` for `0 ≤ a ≤ b` (out-of-range indices clamp). -/
def sliceL (s : List Char) (a b : Nat) : List Char := (s.drop a).take (b - a)

/-- Case folding applied to both sides before comparison unless
`case_sensitive`. -/
def normText (cs : Bool) (s : List Char) : List Char :=
  if cs then s else lowerL s

inductive MatchType where
  | exact
  | fuzzy
  | notFound
deriving DecidableEq, Repr

/-- One entry of the returned list: `{text, start, end, similarity,
match_type}`; `start`/`end` are `None` for `not_found`. -/
structure Span where
  text : List Char
  startPos : Option Nat
  endPos : Option Nat
  similarity : ℚ
  matchType : MatchType
deriving DecidableEq, Repr

/-- Lines 110-115: the `(start, end)` character span of the window of
`windowSize` consecutive words beginning at word `i`. -/
def mkWindow (wl : List (Nat × Nat)) (i windowSize : Nat) : Nat × Nat :=
  ((wl.getD i (0, 0)).1, (wl.getD (i + windowSize - 1) (0, 0)).2)

/-- Lines 110-111: window sizes `range(evidence_word_count,
min(evidence_word_count + 5, len(word_list) + 1))`, and for each size all
start positions `range(len(word_list) - window_size + 1)`, in that order. -/
def windowsOf (wl : List (Nat × Nat)) (wc : Nat) : List (Nat × Nat) :=
  (List.range' wc (min (wc + 5) (wl.length + 1) - wc)).flatMap
    (fun ws => (List.range (wl.length + 1 - ws)).map (fun i => mkWindow wl i ws))

/-- Similarity of the evidence against one window (lines 117-122): the window
text is re-sliced from the original document (preserving spacing and casing),
then normalized for the comparison only. -/
def windowSim (simFn : List Char → List Char → ℚ) (cs : Bool)
    (evNorm text : List Char) (w : Nat × Nat) : ℚ :=
  simFn evNorm (normText cs (sliceL text w.1 w.2))

/-- The best-window loop (lines 105-132): the running best is replaced only on
`similarity > best_similarity and similarity >= min_similarity`.  The loop
body stores the winning window's span dict; here the winning window is kept
and the span is materialized from it afterwards, which produces the same
value since the stored dict is a function of the window and its similarity. -/
def selectBest (score : α → ℚ) (minSim : ℚ) :
    List α → Option α × ℚ → Option α × ℚ
  | [], acc => acc
  | w :: ws, acc =>
      selectBest score minSim ws
        (if acc.2 < score w ∧ minSim ≤ score w then (some w, score w) else acc)

/-- The per-evidence body of the `for evidence in evidence_strings` loop
(lines 67-144), for one non-blank evidence string. -/
def annotateOne (simFn : List Char → List Char → ℚ) (minSim : ℚ) (cs : Bool)
    (text ev : List Char) : Span :=
  let evClean := stripL ev
  let evNorm := normText cs evClean
  let searchText := normText cs text
  match findSub evNorm searchText with
  | some idx =>
      { text := evClean, startPos := some idx
        endPos := some (idx + evClean.length), similarity := 1
        matchType := .exact }
  | none =>
      let wl := tokenize text
      if wl.isEmpty then
        { text := evClean, startPos := none, endPos := none, similarity := 0
          matchType := .notFound }
      else
        let wc := (tokenize evNorm).length
        match (selectBest (windowSim simFn cs evNorm text) minSim
            (windowsOf wl wc) (none, 0)).1 with
        | some w =>
            { text := sliceL text w.1 w.2, startPos := some w.1
              endPos := some w.2
              similarity := windowSim simFn cs evNorm text w
              matchType := .fuzzy }
        | none =>
            { text := evClean, startPos := none, endPos := none
              similarity := 0, matchType := .notFound }

/-- `find_evidence_spans`: empty document or empty evidence list short-circuit
to `[]` (line 55); evidence strings that are empty or whitespace-only are
skipped by the `continue` at lines 64-65. -/
def findEvidenceSpans (simFn : List Char → List Char → ℚ) (minSim : ℚ)
    (cs : Bool) (text : List Char) (evs : List (List Char)) : List Span :=
  if text.isEmpty ∨ evs.isEmpty then []
  else
    evs.filterMap (fun ev =>
      if (stripL ev).isEmpty then none
      else some (annotateOne simFn minSim cs text ev))

/-- A trivial similarity oracle used to instantiate `simFn` in concrete
counterexamples and witnesses that only exercise the exact-match or
skip-blank paths. -/
def zeroSim : List Char → List Char → ℚ := fun _ _ => 0

/-- A concrete similarity oracle for witnesses exercising the fuzzy path:
scores `1` for the window text `"xy zw"` and `0` otherwise. -/
def toyWindowSim : List Char → List Char → ℚ :=
  fun _ w => if w = "xy zw".toList then 1 else 0

/-- `evidence_normalized` (annotator.py line 68). -/
def evNormOf (cs : Bool) (ev : List Char) : List Char :=
  normText cs (stripL ev)

/-- `evidence_word_count = len(evidence_normalized.split())` (line 109). -/
def wordCount (cs : Bool) (ev : List Char) : Nat :=
  (tokenize (evNormOf cs ev)).length

/-- The candidate windows the fuzzy stage enumerates for a document and an
evidence string, in loop order. -/
def docWindows (cs : Bool) (text ev : List Char) : List (Nat × Nat) :=
  windowsOf (tokenize text) (wordCount cs ev)

/-- The similarity the fuzzy stage computes for one candidate window. -/
def evWindowSim (simFn : List Char → List Char → ℚ) (cs : Bool)
    (text ev : List Char) (w : Nat × Nat) : ℚ :=
  windowSim simFn cs (evNormOf cs ev) text w

/-! ## validate_icd10_code (`.../icd10_rag_extraction/utils.py`, 13-30) -/

/-- The regex body `[A-Z][0-9]{2}(\.[0-9]+)?` matched against a whole string. -/
def matchesICD10Core : List Char → Bool
  | c :: d1 :: d2 :: rest =>
      c.isUpper && d1.isDigit && d2.isDigit &&
        (match rest with
         | [] => true
         | '.' :: ds => !ds.isEmpty && ds.all Char.isDigit
         | _ => false)
  | _ => false

/-- `validate_icd10_code`: `not code` rejects the empty string; then
`bool(re.match(r'^[A-Z][0-9]{2}(\.[0-9]+)?$', code))`.  Python's `$` also
matches just before a trailing `'\n'`, so a code followed by one final newline
is accepted as well. -/
def validateICD10 (code : String) : Bool :=
  let cs := code.toList
  if cs.isEmpty then false
  else
    matchesICD10Core cs ||
      (cs.getLast? == some '\n' && matchesICD10Core cs.dropLast)

/-! ## CodeReranker.rerank, local post-processing (`.../reranker.py`, 41-166)

The external LLM call is a parameter: `none` stands for every failure mode
that yields the empty result (malformed JSON, missing `'Reranked ICD-10
Codes'` key, any exception), `some entries` for a structurally valid
response. -/

/-- One element of the response's `'Reranked ICD-10 Codes'` list, per
`RERANKING_SCHEMA`. -/
structure RerankEntry where
  code : String
  name : String
deriving DecidableEq, Repr

/-- A response element that survived validation, with the re-attached
similarity (`code_info['similarity'] = similarity`). -/
structure RerankedCode where
  code : String
  name : String
  similarity : ℚ
deriving DecidableEq, Repr

/-- Lines 138-144: `code_to_similarity` is a dict built over `retrieved_codes`
in order, skipping empty codes; on duplicate codes the later entry
overwrites, so a lookup returns the last matching candidate's similarity,
and `.get(code, 0.0)` returns `0` when the code is absent. -/
def codeToSimilarity (retrieved : List RetrievedCand) (code : String) : ℚ :=
  (((retrieved.filter (fun r => r.code ≠ "")).reverse.find?
      (fun r => r.code = code)).map RetrievedCand.similarity).getD 0

/-- `CodeReranker.rerank` around the external call: empty candidate list
short-circuits (line 72); every response entry is kept iff its code passes
`validate_icd10_code`, and gets the similarity recovered from the retrieved
list (lines 146-158). -/
def rerank (retrieved : List RetrievedCand) (response : Option (List RerankEntry)) :
    List RerankedCode :=
  if retrieved.isEmpty then []
  else
    match response with
    | none => []
    | some entries =>
        entries.filterMap (fun e =>
          if validateICD10 e.code then
            some ⟨e.code, e.name, codeToSimilarity retrieved e.code⟩
          else none)

/-! ## DiseaseExtractor.extract, local validation (`.../extractor.py`, 107-148)

The external structured-output call is a parameter (`resp` = the parsed
`'Diseases'` list of a well-formed response).  Lines 119-146: diseases whose
`ICD10` fails validation are dropped; each evidence string is stripped, blank
results are skipped, and the verbatim substring check (line 136) only selects
which warning to log — both branches append the stripped string. -/

/-- One element of the response's `'Diseases'` list per
`DISEASE_EXTRACTION_SCHEMA`; evidence strings as `List Char`. -/
structure RawDisease where
  name : String
  evidence : List (List Char)
  icd10 : String
deriving DecidableEq, Repr

/-- The per-disease evidence validation loop (lines 129-142). -/
def validateEvidence (doc : List Char) (evidence : List (List Char)) :
    List (List Char) :=
  evidence.filterMap (fun ev =>
    let evClean := stripL ev
    if evClean.isEmpty then none
    else
      -- line 136: the case-insensitive membership check `ev_lower in
      -- clinical_lower` decides only which message is printed; the evidence
      -- is appended in both branches.
      let _isVerbatim := (findSub (lowerL evClean) (lowerL doc)).isSome
      some evClean)

/-- The validation phase of `DiseaseExtractor.extract` on a well-formed
response. -/
def extractValidate (doc : List Char) (resp : List RawDisease) :
    List RawDisease :=
  resp.filterMap (fun d =>
    if validateICD10 d.icd10 then
      some { d with evidence := validateEvidence doc d.evidence }
    else none)

/-! ## Helper lemmas -/

theorem evictIfFull_pending_le (s : SessionState)
    (h : s.pending.length ≤ MAX_PENDING_CHUNKS) :
    (evictIfFull s).pending.length ≤ MAX_PENDING_CHUNKS - 1 := by
  unfold evictIfFull
  split
  · next hfull =>
      match hs : s.pending with
      | [] => simp [hs] at hfull; simp [MAX_PENDING_CHUNKS] at hfull
      | oldest :: rest =>
          simp only
          rw [hs] at h
          simp at h
          simp [MAX_PENDING_CHUNKS] at h ⊢
          omega
  · next hfull => omega

theorem completeTask_foldl_pending_le (l : List String) (s : SessionState) :
    (l.foldl completeTask s).pending.length ≤ s.pending.length := by
  induction l generalizing s with
  | nil => simp
  | cons id tl ih =>
      calc (List.foldl completeTask (completeTask s id) tl).pending.length
          ≤ (completeTask s id).pending.length := ih _
        _ ≤ s.pending.length := by
            simp [completeTask]
            exact List.length_filter_le _ _

theorem runIter_pending_le (s : SessionState) (it : LoopIter)
    (h : s.pending.length ≤ MAX_PENDING_CHUNKS) :
    (runIter s it).pending.length ≤ MAX_PENDING_CHUNKS := by
  have h1 := evictIfFull_pending_le s h
  have h2 := completeTask_foldl_pending_le it.completions (evictIfFull s)
  unfold runIter
  match hadm : it.dispatch with
  | some id =>
      simp only [hadm]
      simp [MAX_PENDING_CHUNKS] at h1 h2 ⊢
      omega
  | none =>
      simp only [hadm]
      simp [MAX_PENDING_CHUNKS] at h1 h2 ⊢
      omega

theorem foldl_runIter_pending_le (iters : List LoopIter) (s : SessionState)
    (h : s.pending.length ≤ MAX_PENDING_CHUNKS) :
    (iters.foldl runIter s).pending.length ≤ MAX_PENDING_CHUNKS := by
  induction iters generalizing s with
  | nil => exact h
  | cons it tl ih => exact ih _ (runIter_pending_le s it h)

/-! ## Claim theorems -/

/-- C1: in the session loop with `MAX_PENDING = 3`, (1) the pending-task
table never exceeds 3 entries on any run; (2) when an iteration starts while
the table is at capacity, exactly the oldest (first-inserted) entry is
cancelled and removed before any new entry is inserted; (3) after accepting 4
tasks from an empty table, exactly 1 eviction has occurred, the table has 3
entries, and the evicted id is the first-inserted one. -/
theorem admission_oldest_drop_bound :
    (∀ iters : List LoopIter,
        (runSession iters).pending.length ≤ MAX_PENDING_CHUNKS) ∧
    (∀ (s : SessionState) (oldest : String) (rest : List String)
        (it : LoopIter), s.pending = oldest :: rest →
        MAX_PENDING_CHUNKS ≤ s.pending.length →
        (evictIfFull s).pending = rest ∧
        (runIter s it).cancelled = s.cancelled ++ [oldest] ∧
        (runIter s it).evicted = s.evicted ++ [oldest]) ∧
    ((runSession [⟨[], some "c1"⟩, ⟨[], some "c2"⟩, ⟨[], some "c3"⟩,
        ⟨[], some "c4"⟩]).evicted = ["c1"] ∧
      (runSession [⟨[], some "c1"⟩, ⟨[], some "c2"⟩, ⟨[], some "c3"⟩,
        ⟨[], some "c4"⟩]).pending = ["c2", "c3", "c4"]) := by
  refine ⟨?_, ?_, by decide⟩
  · intro iters
    exact foldl_runIter_pending_le iters initSession (by simp [initSession])
  · intro s oldest rest it hp hful
    have hev : evictIfFull s =
        { pending := rest, cancelled := s.cancelled ++ [oldest]
          evicted := s.evicted ++ [oldest] } := by
      unfold evictIfFull
      rw [if_pos hful, hp]
    have hcomp : ∀ (l : List String) (t : SessionState),
        (l.foldl completeTask t).cancelled = t.cancelled ∧
        (l.foldl completeTask t).evicted = t.evicted := by
      intro l
      induction l with
      | nil => intro t; exact ⟨rfl, rfl⟩
      | cons id tl ih =>
          intro t
          simpa [completeTask] using ih (completeTask t id)
    refine ⟨by rw [hev], ?_, ?_⟩ <;>
      · unfold runIter
        rw [hev]
        match hadm : it.dispatch with
        | some id => simp [(hcomp it.completions _).1, (hcomp it.completions _).2]
        | none => simp [(hcomp it.completions _).1, (hcomp it.completions _).2]

/-- Witness for C1: the invariant at a concrete run, and the eviction shape at
a concrete at-capacity state. -/
theorem admission_oldest_drop_bound_witness :
    (runSession [⟨[], some "a"⟩, ⟨[], some "b"⟩]).pending.length ≤
        MAX_PENDING_CHUNKS ∧
    (evictIfFull ⟨["a", "b", "c"], [], []⟩).pending = ["b", "c"] ∧
    (runIter ⟨["a", "b", "c"], [], []⟩ ⟨[], some "d"⟩).cancelled =
        [] ++ ["a"] ∧
    (runIter ⟨["a", "b", "c"], [], []⟩ ⟨[], some "d"⟩).evicted =
        [] ++ ["a"] := by
  have h := admission_oldest_drop_bound
  have h2 := h.2.1 ⟨["a", "b", "c"], [], []⟩ "a" ["b", "c"] ⟨[], some "d"⟩
    rfl (by decide)
  exact ⟨h.1 _, h2.1, h2.2.1, h2.2.2⟩

/-- C2 counterexample: a session ending with a generic exception (any error
other than `WebSocketDisconnect`) does NOT clear the pending-task table —
with one in-flight task, the table still holds it after the handler at
server.py lines 167-176 runs. -/
theorem session_error_leaves_pending :
    ¬ ((onTermination ⟨["c1"], [], []⟩ (mkAudioProcessor 16000 3)
        .otherError).1.pending = []) := by
  decide

/-- C2 amended: only on `WebSocketDisconnect` are all remaining in-flight
handles cancelled and the table cleared (and the audio buffer cleared); when
the session loop ends with any other error, the audio buffer is cleared but
the pending-task table is left untouched and nothing is cancelled. -/
theorem session_termination_cleanup (s : SessionState) (a : AudioState) :
    ((onTermination s a .disconnect).1.pending = [] ∧
      (∀ id ∈ s.pending, id ∈ (onTermination s a .disconnect).1.cancelled) ∧
      (onTermination s a .disconnect).2.buffer = []) ∧
    ((onTermination s a .otherError).1 = s ∧
      (onTermination s a .otherError).2.buffer = []) := by
  refine ⟨⟨rfl, ?_, rfl⟩, rfl, rfl⟩
  intro id hid
  simp [onTermination]
  exact Or.inr hid

/-- Witness for C2 amended: disconnect termination at a concrete state clears
the table and cancels the concrete pending task. -/
theorem session_termination_cleanup_witness :
    (onTermination ⟨["x"], [], []⟩ (mkAudioProcessor 16000 3)
        .disconnect).1.pending = [] ∧
    "x" ∈ (onTermination ⟨["x"], [], []⟩ (mkAudioProcessor 16000 3)
        .disconnect).1.cancelled := by
  have h := session_termination_cleanup ⟨["x"], [], []⟩ (mkAudioProcessor 16000 3)
  exact ⟨h.1.1, h.1.2.1 "x" (by decide)⟩

/-- C8: evaluation of the code at the failing input.  `add_audio` does return
`true` exactly when the buffered sample count reaches the window size, but
`get_chunk` then returns the bare sample list — `some [5, 6]`, not a triple
`(id, timestamp, samples)`; the unpacking `chunk_id, timestamp, chunk =
result` at server.py line 133 therefore fails on every emitted chunk. -/
theorem getChunk_returns_bare_samples :
    (addAudio (mkAudioProcessor 2 1) [5]).1 = false ∧
    (addAudio (mkAudioProcessor 2 1) [5, 6]).1 = true ∧
    (getChunk (addAudio (mkAudioProcessor 2 1) [5, 6]).2).1 = some [5, 6] := by
  decide

/-- C9: feeding exactly `window_size = sample_rate * chunk_duration` samples
into a fresh `AudioProcessor` makes `add_audio` report readiness; `get_chunk`
then emits exactly those samples as the single chunk, after which the buffer
holds exactly the trailing 0.5-second overlap of the emitted chunk
(`sample_rate / 2` samples), so a second `get_chunk` emits nothing. -/
theorem chunkWindow_roundTrip (rate dur : Nat) (samples : List Int)
    (hr : 1 ≤ rate) (hd : 1 ≤ dur) (hlen : samples.length = rate * dur) :
    (addAudio (mkAudioProcessor rate dur) samples).1 = true ∧
    (getChunk (addAudio (mkAudioProcessor rate dur) samples).2).1 =
        some samples ∧
    (getChunk (addAudio (mkAudioProcessor rate dur) samples).2).2.buffer =
        samples.drop (rate * dur - rate / 2) ∧
    (getChunk (addAudio (mkAudioProcessor rate dur) samples).2).2.buffer.length
        = rate / 2 ∧
    (getChunk
        (getChunk (addAudio (mkAudioProcessor rate dur) samples).2).2).1 =
      none := by
  have hhalf : rate / 2 < rate := Nat.div_lt_self (by omega) (by omega)
  have hmul : rate ≤ rate * dur := Nat.le_mul_of_pos_right rate (by omega)
  have hst : (addAudio (mkAudioProcessor rate dur) samples).2 =
      ⟨rate, dur, samples⟩ := rfl
  have hc : (⟨rate, dur, samples⟩ : AudioState).chunkSize ≤
      samples.length := by
    simp [AudioState.chunkSize, hlen]
  have htake : samples.take ((⟨rate, dur, samples⟩ : AudioState).chunkSize) =
      samples := by
    show samples.take (rate * dur) = samples
    rw [← hlen, List.take_length]
  have hg1 : getChunk ⟨rate, dur, samples⟩ =
      (some samples, ⟨rate, dur, samples.drop (rate * dur - rate / 2)⟩) := by
    rw [getChunk, if_pos hc, htake]
    rfl
  have hlen2 : (samples.drop (rate * dur - rate / 2)).length = rate / 2 := by
    rw [List.length_drop, hlen]
    omega
  have hg2 : (getChunk ⟨rate, dur, samples.drop (rate * dur - rate / 2)⟩).1 =
      none := by
    rw [getChunk, if_neg]
    intro hcontra
    have hcs2 : (⟨rate, dur, samples.drop (rate * dur - rate / 2)⟩ :
        AudioState).chunkSize = rate * dur := rfl
    have hbuf2 : (⟨rate, dur, samples.drop (rate * dur - rate / 2)⟩ :
        AudioState).buffer = samples.drop (rate * dur - rate / 2) := rfl
    rw [hcs2, hbuf2, hlen2] at hcontra
    omega
  refine ⟨?_, ?_, ?_, ?_, ?_⟩
  · simp [addAudio, mkAudioProcessor, AudioState.chunkSize, hlen]
  · rw [hst, hg1]
  · rw [hst, hg1]
  · rw [hst, hg1]
    exact hlen2
  · rw [hst, hg1]
    exact hg2

/-- Witness for C9 at a concrete rate and duration. -/
theorem chunkWindow_roundTrip_witness :
    (addAudio (mkAudioProcessor 4 1) [1, 2, 3, 4]).1 = true ∧
    (getChunk (addAudio (mkAudioProcessor 4 1) [1, 2, 3, 4]).2).1 =
        some [1, 2, 3, 4] ∧
    (getChunk (addAudio (mkAudioProcessor 4 1) [1, 2, 3, 4]).2).2.buffer =
        ([1, 2, 3, 4] : List Int).drop (4 * 1 - 4 / 2) ∧
    (getChunk
        (addAudio (mkAudioProcessor 4 1) [1, 2, 3, 4]).2).2.buffer.length
      = 4 / 2 ∧
    (getChunk
        (getChunk (addAudio (mkAudioProcessor 4 1) [1, 2, 3, 4]).2).2).1 =
      none := by
  have h := chunkWindow_roundTrip 4 1 [1, 2, 3, 4] (by decide) (by decide)
    (by decide)
  exact ⟨h.1, h.2.1, h.2.2.1, h.2.2.2.1, h.2.2.2.2⟩

theorem filterMap_strip (l : List (List Char)) :
    l.filterMap
        (fun ev => if (stripL ev).isEmpty then none else some (stripL ev)) =
      (l.map stripL).filter (fun e => !e.isEmpty) := by
  induction l with
  | nil => rfl
  | cons ev tl ih =>
      have ih2 : List.filterMap
          (fun ev => if stripL ev = [] then none else some (stripL ev)) tl =
          List.filter (fun e => !e.isEmpty) (List.map stripL tl) := by
        simpa using ih
      cases hsv : stripL ev with
      | nil => simp [List.filterMap_cons, List.filter_cons, hsv, ih2]
      | cons c cs => simp [List.filterMap_cons, List.filter_cons, hsv, ih2]

theorem validateEvidence_eq (doc : List Char) (evidence : List (List Char)) :
    validateEvidence doc evidence =
      (evidence.map stripL).filter (fun e => !e.isEmpty) :=
  filterMap_strip evidence

/-- C10: every disease record retained by `DiseaseExtractor.extract` carries
an evidence list equal to the response's evidence list with every string
stripped of surrounding whitespace and the blank ones silently dropped, in
the original order; hence every output evidence string is non-empty and is
the stripped form of a string the external model returned. -/
theorem extract_evidence_stripped (doc : List Char) (resp : List RawDisease) :
    ∀ d ∈ extractValidate doc resp,
      validateICD10 d.icd10 = true ∧
      ∃ d0 ∈ resp, d0.name = d.name ∧ d0.icd10 = d.icd10 ∧
        d.evidence = (d0.evidence.map stripL).filter (fun e => !e.isEmpty) ∧
        ∀ ev ∈ d.evidence, ¬ ev.isEmpty ∧ ∃ ev0 ∈ d0.evidence,
          ev = stripL ev0 := by
  intro d hd
  rw [extractValidate, List.mem_filterMap] at hd
  obtain ⟨d0, hd0, hsome⟩ := hd
  by_cases hval : validateICD10 d0.icd10
  · rw [if_pos hval] at hsome
    have hdef : d = { d0 with evidence := validateEvidence doc d0.evidence } :=
      (Option.some.injEq _ _ ▸ hsome).symm
    subst hdef
    refine ⟨hval, d0, hd0, rfl, rfl, validateEvidence_eq doc d0.evidence, ?_⟩
    intro ev hev
    rw [validateEvidence_eq doc d0.evidence, List.mem_filter] at hev
    obtain ⟨hmem, hne⟩ := hev
    rw [List.mem_map] at hmem
    obtain ⟨ev0, hev0, hstrip⟩ := hmem
    exact ⟨by simpa using hne, ev0, hev0, hstrip.symm⟩
  · rw [if_neg hval] at hsome
    exact absurd hsome (by simp)

/-- Witness for C10: a concrete response with padded and blank evidence
strings. -/
theorem extract_evidence_stripped_witness :
    (⟨"Sepsis", ["high fever".toList], "A41.9"⟩ : RawDisease) ∈
        extractValidate "high fever".toList
          [⟨"Sepsis", [" high fever ".toList, "  ".toList], "A41.9"⟩] ∧
    (validateICD10 (⟨"Sepsis", ["high fever".toList], "A41.9"⟩ :
        RawDisease).icd10 = true ∧
      ∃ d0 ∈ [(⟨"Sepsis", [" high fever ".toList, "  ".toList], "A41.9"⟩ :
          RawDisease)],
        d0.name = "Sepsis" ∧ d0.icd10 = "A41.9" ∧
        (["high fever".toList] : List (List Char)) =
          (d0.evidence.map stripL).filter (fun e => !e.isEmpty) ∧
        ∀ ev ∈ (["high fever".toList] : List (List Char)), ¬ ev.isEmpty ∧
          ∃ ev0 ∈ d0.evidence, ev = stripL ev0) := by
  refine ⟨by decide, ?_⟩
  exact extract_evidence_stripped "high fever".toList
    [⟨"Sepsis", [" high fever ".toList, "  ".toList], "A41.9"⟩]
    ⟨"Sepsis", ["high fever".toList], "A41.9"⟩ (by decide)

theorem validateICD10_ne_empty {c : String} (h : validateICD10 c = true) :
    c ≠ "" := by
  intro heq
  rw [heq] at h
  exact absurd h (by decide)

theorem codeToSimilarity_of_mem (retrieved : List RetrievedCand)
    (r : RetrievedCand) (hnd : (retrieved.map RetrievedCand.code).Nodup)
    (hr : r ∈ retrieved) (hne : r.code ≠ "") :
    codeToSimilarity retrieved r.code = r.similarity := by
  unfold codeToSimilarity
  cases hfind : (retrieved.filter (fun x => x.code ≠ "")).reverse.find?
      (fun x => x.code = r.code) with
  | none =>
      rw [List.find?_eq_none] at hfind
      have hmem : r ∈ (retrieved.filter (fun x => x.code ≠ "")).reverse := by
        rw [List.mem_reverse, List.mem_filter]
        exact ⟨hr, by simpa using hne⟩
      exact absurd (by simp : decide (r.code = r.code) = true) (hfind r hmem)
  | some r' =>
      have hp : r'.code = r.code := by simpa using List.find?_some hfind
      have hm : r' ∈ retrieved := by
        have := List.mem_of_find?_eq_some hfind
        rw [List.mem_reverse, List.mem_filter] at this
        exact this.1
      have : r' = r := List.inj_on_of_nodup_map hnd hm hr hp
      subst this
      simp

theorem codeToSimilarity_of_absent (retrieved : List RetrievedCand)
    (c : String) (habs : ∀ r ∈ retrieved, r.code ≠ c) :
    codeToSimilarity retrieved c = 0 := by
  unfold codeToSimilarity
  have hfind : (retrieved.filter (fun x => x.code ≠ "")).reverse.find?
      (fun x => x.code = c) = none := by
    rw [List.find?_eq_none]
    intro x hx
    rw [List.mem_reverse, List.mem_filter] at hx
    simpa using habs x hx.1
  rw [hfind]
  rfl

/-- C7: every entry of the reranker's output survived ICD-10 format
validation, and its similarity is exactly the similarity of the retrieved
candidate bearing the same code (assuming, as retrieval guarantees, that
codes in the retrieved list are pairwise distinct), or `0` when no retrieved
candidate has that code — the reranker never invents similarity scores. -/
theorem rerank_recovers_similarity (retrieved : List RetrievedCand)
    (entries : List RerankEntry)
    (hnd : (retrieved.map RetrievedCand.code).Nodup) :
    ∀ e ∈ rerank retrieved (some entries),
      validateICD10 e.code = true ∧
      (∀ r ∈ retrieved, r.code = e.code → e.similarity = r.similarity) ∧
      ((∀ r ∈ retrieved, r.code ≠ e.code) → e.similarity = 0) := by
  intro e he
  rw [rerank] at he
  by_cases hre : retrieved.isEmpty
  · rw [if_pos hre] at he
    exact absurd he (by simp)
  · rw [if_neg hre, List.mem_filterMap] at he
    obtain ⟨a, _, hsome⟩ := he
    by_cases hval : validateICD10 a.code
    · rw [if_pos hval] at hsome
      have hdef : e = ⟨a.code, a.name, codeToSimilarity retrieved a.code⟩ :=
        (Option.some.injEq _ _ ▸ hsome).symm
      subst hdef
      refine ⟨hval, ?_, ?_⟩
      · intro r hrmem hcode
        have hc2 : r.code = a.code := hcode
        have hne2 : r.code ≠ "" := by
          rw [hc2]
          exact validateICD10_ne_empty hval
        have hsim := codeToSimilarity_of_mem retrieved r hnd hrmem hne2
        show codeToSimilarity retrieved a.code = r.similarity
        rw [← hc2]
        exact hsim
      · intro habs
        show codeToSimilarity retrieved a.code = 0
        exact codeToSimilarity_of_absent retrieved a.code
          (fun r hr => habs r hr)
    · rw [if_neg hval] at hsome
      exact absurd hsome (by simp)

/-- Witness for C7: the spec's scenario — the retrieved list carries
`{code: "A41.9", similarity: 0.82}`, and every surviving reranked entry
(in particular `"A41.9"`) carries the similarity recovered from the
retrieved list. -/
theorem rerank_recovers_similarity_witness :
    (([⟨"A41.9", 82/100, "Sepsis, unspecified", ""⟩,
        ⟨"R57.2", 3/4, "Septic shock", ""⟩] : List RetrievedCand).map
        RetrievedCand.code).Nodup ∧
    ∀ e ∈ rerank
        [⟨"A41.9", 82/100, "Sepsis, unspecified", ""⟩,
          ⟨"R57.2", 3/4, "Septic shock", ""⟩]
        (some [⟨"R57.2", "Septic shock"⟩, ⟨"A41.9", "Sepsis, unspecified"⟩]),
      validateICD10 e.code = true ∧
      (∀ r ∈ [(⟨"A41.9", 82/100, "Sepsis, unspecified", ""⟩ : RetrievedCand),
          ⟨"R57.2", 3/4, "Septic shock", ""⟩], r.code = e.code →
        e.similarity = r.similarity) ∧
      ((∀ r ∈ [(⟨"A41.9", 82/100, "Sepsis, unspecified", ""⟩ : RetrievedCand),
          ⟨"R57.2", 3/4, "Septic shock", ""⟩], r.code ≠ e.code) →
        e.similarity = 0) :=
  ⟨by decide,
    rerank_recovers_similarity
      [⟨"A41.9", 82/100, "Sepsis, unspecified", ""⟩,
        ⟨"R57.2", 3/4, "Septic shock", ""⟩]
      [⟨"R57.2", "Septic shock"⟩, ⟨"A41.9", "Sepsis, unspecified"⟩]
      (by decide)⟩

theorem pySliceLast_length_le (k : Int) (hk : 1 ≤ k) (l : List α) :
    (pySliceLast k l).length ≤ k.toNat := by
  unfold pySliceLast
  rw [if_pos (by omega : (0 : Int) < k)]
  rw [List.length_drop]
  omega

theorem pySliceLast_sublist (k : Int) (l : List α) :
    (pySliceLast k l).Sublist l := by
  unfold pySliceLast
  split <;> exact List.drop_sublist _ _

theorem simLe_total (sims : Nat → ℚ) (i j : Nat) :
    simLe sims i j ∨ simLe sims j i := by
  rcases lt_trichotomy (sims i) (sims j) with h | h | h
  · exact Or.inl (Or.inl h)
  · rcases Nat.le_total i j with hij | hij
    · exact Or.inl (Or.inr ⟨h, hij⟩)
    · exact Or.inr (Or.inr ⟨h.symm, hij⟩)
  · exact Or.inr (Or.inl h)

theorem simLe_trans (sims : Nat → ℚ) (i j k : Nat)
    (h1 : simLe sims i j) (h2 : simLe sims j k) : simLe sims i k := by
  rcases h1 with h1 | ⟨he1, hl1⟩
  · rcases h2 with h2 | ⟨he2, _⟩
    · exact Or.inl (h1.trans h2)
    · exact Or.inl (he2 ▸ h1)
  · rcases h2 with h2 | ⟨he2, hl2⟩
    · exact Or.inl (he1 ▸ h2)
    · exact Or.inr ⟨he1.trans he2, hl1.trans hl2⟩

/-- C3 counterexample: with two embedding rows of equal similarity,
threshold `0` and `top_k = 0`, `retrieve` returns 2 entries — not at most
`k = 0` — because the slice `[-top_k:]` with `top_k = 0` is `[0:]`, the whole
array; moreover the two equal-similarity rows come back as `[row 1, row 0]`,
i.e. in descending row order, not ascending. -/
theorem retrieve_topk_zero_counterexample :
    ¬ ((retrieve (fun _ => (2 : ℚ)) (fun i => if i = 0 then "A00" else "A01")
        (fun _ => none) 2 0 0).length ≤ 0) ∧
    retrieveIndices (fun _ => (2 : ℚ)) 2 0 0 = [1, 0] := by
  constructor
  · decide
  · decide

/-- C3 amended: for every `top_k ≥ 1` and every `min_similarity`, `retrieve`
returns at most `top_k` entries, each with similarity ≥ `min_similarity`,
sorted by strictly descending similarity with equal-similarity rows in
DESCENDING original row order (under the stable model of `argsort`); the
returned entries are exactly the rows listed by `retrieveIndices`. -/
theorem retrieve_sorted_bounded (sims : Nat → ℚ) (idxToCode : Nat → String)
    (meta : String → Option CodeMeta) (n : Nat) (topK : Int) (minSim : ℚ)
    (hk : 1 ≤ topK) :
    (retrieve sims idxToCode meta n topK minSim).length ≤ topK.toNat ∧
    (∀ e ∈ retrieve sims idxToCode meta n topK minSim,
      minSim ≤ e.similarity) ∧
    (retrieveIndices sims n topK minSim).Pairwise
      (fun i j => sims j < sims i ∨ (sims i = sims j ∧ j < i)) ∧
    retrieve sims idxToCode meta n topK minSim =
      (retrieveIndices sims n topK minSim).map
        (mkRetrieved sims idxToCode meta) := by
  haveI htot : IsTotal Nat (simLe sims) := ⟨simLe_total sims⟩
  haveI htr : IsTrans Nat (simLe sims) := ⟨simLe_trans sims⟩
  have hperm : List.Perm
      (List.insertionSort (simLe sims) (validIndices sims n minSim))
      (validIndices sims n minSim) := List.perm_insertionSort _ _
  have hsorted : (List.insertionSort (simLe sims)
      (validIndices sims n minSim)).Pairwise (simLe sims) :=
    List.sorted_insertionSort _ _
  have hvalidnd : (validIndices sims n minSim).Nodup :=
    List.Nodup.filter _ (List.nodup_range n)
  have hsortnd : (List.insertionSort (simLe sims)
      (validIndices sims n minSim)).Nodup := hperm.symm.nodup hvalidnd
  have hslsub : (pySliceLast topK (List.insertionSort (simLe sims)
      (validIndices sims n minSim))).Sublist
      (List.insertionSort (simLe sims) (validIndices sims n minSim)) :=
    pySliceLast_sublist _ _
  have hslpw : (pySliceLast topK (List.insertionSort (simLe sims)
      (validIndices sims n minSim))).Pairwise (simLe sims) :=
    hsorted.sublist hslsub
  have hslnd : (pySliceLast topK (List.insertionSort (simLe sims)
      (validIndices sims n minSim))).Nodup := hsortnd.sublist hslsub
  have hrevpw : (retrieveIndices sims n topK minSim).Pairwise
      (fun i j => simLe sims j i) := by
    rw [retrieveIndices, List.pairwise_reverse]
    exact hslpw
  have hrevnd : (retrieveIndices sims n topK minSim).Nodup := by
    rw [retrieveIndices, List.nodup_reverse]
    exact hslnd
  have hmemvalid : ∀ i ∈ retrieveIndices sims n topK minSim,
      minSim ≤ sims i := by
    intro i hi
    rw [retrieveIndices, List.mem_reverse] at hi
    have hi2 : i ∈ List.insertionSort (simLe sims)
        (validIndices sims n minSim) := hslsub.subset hi
    have hi3 : i ∈ validIndices sims n minSim := hperm.subset hi2
    rw [validIndices, List.mem_filter] at hi3
    simpa using hi3.2
  refine ⟨?_, ?_, ?_, rfl⟩
  · rw [retrieve, List.length_map, retrieveIndices, List.length_reverse]
    exact pySliceLast_length_le topK hk _
  · intro e he
    rw [retrieve, List.mem_map] at he
    obtain ⟨i, hi, rfl⟩ := he
    exact hmemvalid i hi
  · refine (hrevpw.and hrevnd).imp ?_
    intro i j hij
    obtain ⟨hle, hne⟩ := hij
    rcases hle with hlt | ⟨heq, hle'⟩
    · exact Or.inl hlt
    · exact Or.inr ⟨heq.symm, lt_of_le_of_ne hle' (fun h => hne h.symm)⟩

/-- Witness for C3 amended, at a 3-row similarity table with a tie. -/
theorem retrieve_sorted_bounded_witness :
    (1 : Int) ≤ 2 ∧
    ((retrieve (fun i => if i = 0 then (3 : ℚ) else 2)
        (fun i => if i = 0 then "A00" else "A01") (fun _ => none) 3 2
        0).length ≤ (2 : Int).toNat ∧
      (∀ e ∈ retrieve (fun i => if i = 0 then (3 : ℚ) else 2)
          (fun i => if i = 0 then "A00" else "A01") (fun _ => none) 3 2 0,
        (0 : ℚ) ≤ e.similarity) ∧
      (retrieveIndices (fun i => if i = 0 then (3 : ℚ) else 2) 3 2
          0).Pairwise
        (fun i j => (if j = 0 then (3 : ℚ) else 2) <
            (if i = 0 then (3 : ℚ) else 2) ∨
          ((if i = 0 then (3 : ℚ) else 2) =
              (if j = 0 then (3 : ℚ) else 2) ∧ j < i)) ∧
      retrieve (fun i => if i = 0 then (3 : ℚ) else 2)
          (fun i => if i = 0 then "A00" else "A01") (fun _ => none) 3 2 0 =
        (retrieveIndices (fun i => if i = 0 then (3 : ℚ) else 2) 3 2
            0).map
          (mkRetrieved (fun i => if i = 0 then (3 : ℚ) else 2)
            (fun i => if i = 0 then "A00" else "A01") (fun _ => none))) :=
  ⟨by decide,
    retrieve_sorted_bounded (fun i => if i = 0 then (3 : ℚ) else 2)
      (fun i => if i = 0 then "A00" else "A01") (fun _ => none) 3 2 0
      (by decide)⟩

theorem filterMap_if_eq_map_filter (p : α → Bool) (g : α → β) (l : List α) :
    l.filterMap (fun a => if p a then none else some (g a)) =
      (l.filter (fun a => !p a)).map g := by
  induction l with
  | nil => rfl
  | cons a tl ih =>
      by_cases h : p a
      · simp [List.filterMap_cons, List.filter_cons, h, ih]
      · simp [List.filterMap_cons, List.filter_cons, h, ih]

/-- C4 counterexample: a non-empty document and the non-empty evidence list
`[" "]`: the whitespace-only evidence string is skipped by the `continue` at
annotator.py lines 64-65, so the result has 0 entries instead of `len(E) =
1`. -/
theorem findSpans_blank_skipped_counterexample :
    ¬ ((findEvidenceSpans zeroSim 1 false "a".toList
        [" ".toList]).length = 1) := by
  decide

/-- C4 amended: for every non-empty document and non-empty evidence list,
`find_evidence_spans` returns exactly one entry per evidence string that is
non-blank (non-empty after stripping), in the order of the evidence list —
unmatched non-blank evidence yields a `not_found` entry rather than being
omitted, but blank evidence strings are silently skipped, so the result has
one entry per non-blank evidence string rather than `len(E)` entries. -/
theorem findSpans_one_entry_per_nonblank
    (simFn : List Char → List Char → ℚ) (minSim : ℚ) (cs : Bool)
    (text : List Char) (evs : List (List Char))
    (ht : ¬ text.isEmpty) (he : ¬ evs.isEmpty) :
    findEvidenceSpans simFn minSim cs text evs =
      (evs.filter (fun ev => !(stripL ev).isEmpty)).map
        (annotateOne simFn minSim cs text) ∧
    (findEvidenceSpans simFn minSim cs text evs).length =
      (evs.filter (fun ev => !(stripL ev).isEmpty)).length := by
  have h1 : findEvidenceSpans simFn minSim cs text evs =
      evs.filterMap (fun ev =>
        if (stripL ev).isEmpty then none
        else some (annotateOne simFn minSim cs text ev)) := by
    rw [findEvidenceSpans, if_neg]
    simp [ht, he]
  have h2 := filterMap_if_eq_map_filter (fun ev => (stripL ev).isEmpty)
    (annotateOne simFn minSim cs text) evs
  rw [h1, h2]
  exact ⟨rfl, List.length_map _ _⟩

/-- Witness for C4 amended: two evidence strings, one blank and one not. -/
theorem findSpans_one_entry_per_nonblank_witness :
    ¬ ("ab".toList.isEmpty) ∧ ¬ (([" ".toList, "ab".toList]).isEmpty) ∧
    (findEvidenceSpans zeroSim 1 false "ab".toList
        [" ".toList, "ab".toList] =
      (([" ".toList, "ab".toList]).filter
          (fun ev => !(stripL ev).isEmpty)).map
        (annotateOne zeroSim 1 false "ab".toList) ∧
      (findEvidenceSpans zeroSim 1 false "ab".toList
          [" ".toList, "ab".toList]).length =
        (([" ".toList, "ab".toList]).filter
            (fun ev => !(stripL ev).isEmpty)).length) :=
  ⟨by decide, by decide,
    findSpans_one_entry_per_nonblank zeroSim 1 false "ab".toList
      [" ".toList, "ab".toList] (by decide) (by decide)⟩

theorem findSub_prefix (needle : List Char) (h : List Char) (i : Nat)
    (hf : findSub needle h = some i) :
    needle.isPrefixOf (h.drop i) = true := by
  induction h generalizing i with
  | nil =>
      rw [findSub] at hf
      by_cases hne : needle.isEmpty
      · rw [if_pos hne] at hf
        obtain rfl : 0 = i := Option.some.injEq _ _ ▸ hf
        rw [List.drop_nil]
        cases needle with
        | nil => rfl
        | cons c t => exact absurd hne (by simp)
      · rw [if_neg hne] at hf
        exact absurd hf (by simp)
  | cons c t ih =>
      rw [findSub] at hf
      by_cases hp : needle.isPrefixOf (c :: t)
      · rw [if_pos hp] at hf
        obtain rfl : 0 = i := Option.some.injEq _ _ ▸ hf
        exact hp
      · rw [if_neg hp] at hf
        rw [Option.map_eq_some'] at hf
        obtain ⟨j, hj, rfl⟩ := hf
        exact ih j hj

theorem findSub_of_append (needle s t : List Char) :
    ∃ i, findSub needle (s ++ (needle ++ t)) = some i := by
  induction s with
  | nil =>
      have hpre : needle.isPrefixOf (needle ++ t) = true :=
        List.isPrefixOf_iff_prefix.mpr (List.prefix_append _ _)
      refine ⟨0, ?_⟩
      rw [List.nil_append]
      cases hne : needle ++ t with
      | nil =>
          have h0 : needle = [] := (List.append_eq_nil.mp hne).1
          rw [h0]
          rfl
      | cons c cs =>
          rw [hne] at hpre
          rw [findSub, if_pos hpre]
  | cons c s' ih =>
      by_cases hp : needle.isPrefixOf (c :: (s' ++ (needle ++ t)))
      · exact ⟨0, by rw [List.cons_append, findSub, if_pos hp]⟩
      · obtain ⟨j, hj⟩ := ih
        refine ⟨j + 1, ?_⟩
        rw [List.cons_append, findSub, if_neg hp, hj]
        rfl

theorem lowerL_sliceL (text : List Char) (a b : Nat) :
    lowerL (sliceL text a b) = sliceL (lowerL text) a b := by
  rw [lowerL, sliceL, sliceL, lowerL, List.map_take, List.map_drop]

/-- C5 counterexample: the evidence `" fever"` (with a leading space) occurs
verbatim in the document `"ab fever"`, but the emitted exact entry records
the offsets of the STRIPPED evidence: `D[3:8] = "fever" ≠ " fever"`, so
`D[start:end] == evidence` fails; the entry's `text` is the stripped
evidence as well. -/
theorem exact_offsets_strip_counterexample :
    "ab fever".toList = "ab".toList ++ " fever".toList ∧
    annotateOne zeroSim 1 false "ab fever".toList " fever".toList =
      ⟨"fever".toList, some 3, some 8, 1, MatchType.exact⟩ ∧
    ¬ (sliceL "ab fever".toList 3 8 = " fever".toList) := by
  decide

/-- C5 amended: for every evidence string whose stripped, case-folded form
occurs in the case-folded document, the annotator emits an exact entry with
similarity `1.0` whose offsets delimit the STRIPPED evidence:
`D[start:end]` equals `evidence.strip()` up to case folding
(case-insensitive only in the comparison; the returned `text` field is the
stripped evidence with its original casing). -/
theorem exact_match_stripped_offsets (simFn : List Char → List Char → ℚ)
    (minSim : ℚ) (text ev s t : List Char)
    (hocc : lowerL text = s ++ (lowerL (stripL ev) ++ t)) :
    ∃ i, annotateOne simFn minSim false text ev =
        ⟨stripL ev, some i, some (i + (stripL ev).length), 1,
          MatchType.exact⟩ ∧
      lowerL (sliceL text i (i + (stripL ev).length)) =
        lowerL (stripL ev) := by
  obtain ⟨i, hfi⟩ : ∃ i,
      findSub (lowerL (stripL ev)) (lowerL text) = some i := by
    rw [hocc]
    exact findSub_of_append _ s t
  refine ⟨i, ?_, ?_⟩
  · show (match findSub (normText false (stripL ev)) (normText false text)
        with
      | some idx =>
          ({ text := stripL ev, startPos := some idx
             endPos := some (idx + (stripL ev).length), similarity := 1
             matchType := .exact } : Span)
      | none => _) = _
    show (match findSub (lowerL (stripL ev)) (lowerL text) with
      | some idx =>
          ({ text := stripL ev, startPos := some idx
             endPos := some (idx + (stripL ev).length), similarity := 1
             matchType := .exact } : Span)
      | none => _) = _
    rw [hfi]
  · have hlow := findSub_prefix _ _ _ hfi
    have hp := List.isPrefixOf_iff_prefix.mp hlow
    have htake : ((lowerL text).drop i).take (lowerL (stripL ev)).length =
        lowerL (stripL ev) := (List.prefix_iff_eq_take.mp hp).symm
    rw [lowerL_sliceL, sliceL]
    have harith : i + (stripL ev).length - i = (stripL ev).length := by omega
    rw [harith]
    have hlen : (lowerL (stripL ev)).length = (stripL ev).length :=
      List.length_map _ _
    rw [← hlen]
    exact htake

/-- Witness for C5 amended: evidence `"fever"` against `"Ab Fever"` (found
case-insensitively at offset 3). -/
theorem exact_match_stripped_offsets_witness :
    lowerL "Ab Fever".toList =
      "ab ".toList ++ (lowerL (stripL "fever".toList) ++ []) ∧
    (∃ i, annotateOne zeroSim 1 false "Ab Fever".toList "fever".toList =
        ⟨stripL "fever".toList, some i,
          some (i + (stripL "fever".toList).length), 1, MatchType.exact⟩ ∧
      lowerL (sliceL "Ab Fever".toList i
          (i + (stripL "fever".toList).length)) =
        lowerL (stripL "fever".toList)) :=
  ⟨by decide,
    exact_match_stripped_offsets zeroSim 1 "Ab Fever".toList "fever".toList
      "ab ".toList [] (by decide)⟩

theorem selectBest_snd_mono (score : α → ℚ) (ms : ℚ) (l : List α)
    (acc : Option α × ℚ) : acc.2 ≤ (selectBest score ms l acc).2 := by
  induction l generalizing acc with
  | nil => exact le_refl _
  | cons x xs ih =>
      rw [selectBest]
      by_cases h : acc.2 < score x ∧ ms ≤ score x
      · rw [if_pos h]
        exact le_trans (le_of_lt h.1) (ih (some x, score x))
      · rw [if_neg h]
        exact ih acc

theorem selectBest_max (score : α → ℚ) (ms : ℚ) (l : List α) :
    ∀ (acc : Option α × ℚ), ∀ w ∈ l,
      score w ≤ (selectBest score ms l acc).2 ∨ score w < ms := by
  induction l with
  | nil => intro acc w hw; cases hw
  | cons x xs ih =>
      intro acc w hw
      rw [selectBest]
      rcases List.mem_cons.mp hw with rfl | hw'
      · by_cases h : acc.2 < score w ∧ ms ≤ score w
        · rw [if_pos h]
          exact Or.inl (selectBest_snd_mono score ms xs (some w, score w))
        · rw [if_neg h]
          rcases not_and_or.mp h with h1 | h2
          · exact Or.inl (le_trans (not_lt.mp h1)
              (selectBest_snd_mono score ms xs acc))
          · exact Or.inr (not_le.mp h2)
      · by_cases h : acc.2 < score x ∧ ms ≤ score x
        · rw [if_pos h]
          exact ih (some x, score x) w hw'
        · rw [if_neg h]
          exact ih acc w hw'

theorem selectBest_isSome (score : α → ℚ) (ms : ℚ) (l : List α)
    (w0 : α) (bs : ℚ) :
    ∃ w', (selectBest score ms l (some w0, bs)).1 = some w' := by
  induction l generalizing w0 bs with
  | nil => exact ⟨w0, rfl⟩
  | cons x xs ih =>
      rw [selectBest]
      by_cases h : ((some w0 : Option α), bs).2 < score x ∧ ms ≤ score x
      · rw [if_pos h]
        exact ih x (score x)
      · rw [if_neg h]
        exact ih w0 bs

theorem selectBest_none_fixed (score : α → ℚ) (ms : ℚ) (l : List α) :
    ∀ bs, (selectBest score ms l (none, bs)).1 = none →
      selectBest score ms l (none, bs) = (none, bs) := by
  induction l with
  | nil => intro bs _; rfl
  | cons x xs ih =>
      intro bs h
      rw [selectBest] at h ⊢
      by_cases hx : ((none : Option α), bs).2 < score x ∧ ms ≤ score x
      · rw [if_pos hx] at h
        obtain ⟨w', hw'⟩ := selectBest_isSome score ms xs x (score x)
        rw [hw'] at h
        cases h
      · rw [if_neg hx] at h ⊢
        exact ih bs h

theorem selectBest_of_all_lt (score : α → ℚ) (ms : ℚ) (l : List α)
    (acc : Option α × ℚ) (h : ∀ w ∈ l, score w < ms) :
    selectBest score ms l acc = acc := by
  induction l generalizing acc with
  | nil => rfl
  | cons x xs ih =>
      rw [selectBest]
      have hx : ¬ (acc.2 < score x ∧ ms ≤ score x) := by
        rintro ⟨_, hms2⟩
        exact absurd (h x (List.mem_cons_self x xs)) (not_lt.mpr hms2)
      rw [if_neg hx]
      exact ih acc (fun w hw => h w (List.mem_cons_of_mem x hw))

theorem selectBest_first_max (score : α → ℚ) (ms : ℚ) :
    ∀ (l : List α) (b : Option α) (bs : ℚ) (w : α),
      (selectBest score ms l (b, bs)).1 = some w →
      b = some w ∨ ∃ l₁ l₂, l = l₁ ++ w :: l₂ ∧ bs < score w ∧
        ms ≤ score w ∧ ∀ w' ∈ l₁, score w' < ms ∨ score w' < score w := by
  intro l
  induction l with
  | nil => intro b bs w h; exact Or.inl h
  | cons x xs ih =>
      intro b bs w h
      rw [selectBest] at h
      by_cases hx : ((b : Option α), bs).2 < score x ∧ ms ≤ score x
      · rw [if_pos hx] at h
        rcases ih (some x) (score x) w h with heq | hdec
        · obtain rfl : x = w := by
            injection heq
          exact Or.inr ⟨[], xs, rfl, hx.1, hx.2, by intro w' hw'; cases hw'⟩
        · obtain ⟨l₁, l₂, hdec, hlt, hms', hall⟩ := hdec
          refine Or.inr ⟨x :: l₁, l₂, by rw [hdec, List.cons_append],
            lt_trans hx.1 hlt, hms', ?_⟩
          intro w' hw'
          rcases List.mem_cons.mp hw' with rfl | hw''
          · exact Or.inr hlt
          · exact hall w' hw''
      · rw [if_neg hx] at h
        rcases ih b bs w h with heq | hdec
        · exact Or.inl heq
        · obtain ⟨l₁, l₂, hdec, hlt, hms', hall⟩ := hdec
          refine Or.inr ⟨x :: l₁, l₂, by rw [hdec, List.cons_append], hlt,
            hms', ?_⟩
          intro w' hw'
          rcases List.mem_cons.mp hw' with rfl | hw''
          · rcases not_and_or.mp hx with h1 | h2
            · exact Or.inr (lt_of_le_of_lt (not_lt.mp h1) hlt)
            · exact Or.inl (not_le.mp h2)
          · exact hall w' hw''

theorem selectBest_val (score : α → ℚ) (ms : ℚ) :
    ∀ (l : List α) (b : Option α) (bs : ℚ) (w : α),
      (∀ w0, b = some w0 → bs = score w0) →
      (selectBest score ms l (b, bs)).1 = some w →
      (selectBest score ms l (b, bs)).2 = score w := by
  intro l
  induction l with
  | nil =>
      intro b bs w hb h
      exact hb w h
  | cons x xs ih =>
      intro b bs w hb h
      rw [selectBest] at h ⊢
      by_cases hx : ((b : Option α), bs).2 < score x ∧ ms ≤ score x
      · rw [if_pos hx] at h ⊢
        refine ih (some x) (score x) w ?_ h
        intro w0 he
        injection he with he2
        rw [he2]
      · rw [if_neg hx] at h ⊢
        exact ih b bs w hb h

theorem selectBest_complete (score : α → ℚ) (ms : ℚ) (l : List α)
    (hms : 0 < ms) (hex : ∃ w ∈ l, ms ≤ score w) :
    ∃ w, (selectBest score ms l (none, 0)).1 = some w := by
  cases hres : (selectBest score ms l (none, 0)).1 with
  | some w => exact ⟨w, rfl⟩
  | none =>
      have hfix := selectBest_none_fixed score ms l 0 hres
      obtain ⟨w, hw, hmsw⟩ := hex
      have hle := selectBest_max score ms l (none, 0) w hw
      rw [hfix] at hle
      rcases hle with hle | hlt
      · exact absurd (lt_of_lt_of_le hms hmsw) (not_lt.mpr hle)
      · exact absurd hmsw (not_le.mpr hlt)

theorem windowsOf_mem (wl : List (Nat × Nat)) (wc : Nat) (w : Nat × Nat) :
    w ∈ windowsOf wl wc ↔ ∃ ws i, wc ≤ ws ∧ ws < wc + 5 ∧
      i + ws ≤ wl.length ∧ w = mkWindow wl i ws := by
  rw [windowsOf, List.mem_flatMap]
  constructor
  · rintro ⟨ws, hws, hw⟩
    rw [List.mem_range'_1] at hws
    rw [List.mem_map] at hw
    obtain ⟨i, hi, rfl⟩ := hw
    rw [List.mem_range] at hi
    exact ⟨ws, i, hws.1, by omega, by omega, rfl⟩
  · rintro ⟨ws, i, h1, h2, h3, rfl⟩
    refine ⟨ws, ?_, ?_⟩
    · rw [List.mem_range'_1]
      exact ⟨h1, by omega⟩
    · rw [List.mem_map]
      exact ⟨i, by rw [List.mem_range]; omega, rfl⟩

theorem annotateOne_of_noexact (simFn : List Char → List Char → ℚ)
    (minSim : ℚ) (cs : Bool) (text ev : List Char)
    (hnoexact : findSub (evNormOf cs ev) (normText cs text) = none) :
    annotateOne simFn minSim cs text ev =
      if (tokenize text).isEmpty then
        ⟨stripL ev, none, none, 0, .notFound⟩
      else
        match (selectBest (evWindowSim simFn cs text ev) minSim
            (docWindows cs text ev) (none, 0)).1 with
        | some w =>
            ⟨sliceL text w.1 w.2, some w.1, some w.2,
              evWindowSim simFn cs text ev w, .fuzzy⟩
        | none => ⟨stripL ev, none, none, 0, .notFound⟩ := by
  rw [evNormOf] at hnoexact
  show (match findSub (normText cs (stripL ev)) (normText cs text) with
    | some idx =>
        ({ text := stripL ev, startPos := some idx
           endPos := some (idx + (stripL ev).length), similarity := 1
           matchType := .exact } : Span)
    | none =>
        if (tokenize text).isEmpty then
          { text := stripL ev, startPos := none, endPos := none
            similarity := 0, matchType := .notFound }
        else
          match (selectBest
              (windowSim simFn cs (normText cs (stripL ev)) text) minSim
              (windowsOf (tokenize text)
                (tokenize (normText cs (stripL ev))).length)
              (none, 0)).1 with
          | some w =>
              { text := sliceL text w.1 w.2, startPos := some w.1
                endPos := some w.2
                similarity := windowSim simFn cs (normText cs (stripL ev))
                  text w
                matchType := .fuzzy }
          | none =>
              { text := stripL ev, startPos := none, endPos := none
                similarity := 0, matchType := .notFound }) = _
  rw [hnoexact]
  rfl

/-- C6: for a non-blank evidence string with no exact substring match, with
`min_similarity > 0` as in every caller: (1) the enumerated fuzzy windows
are exactly the contiguous word windows of the document whose size runs from
the evidence's whitespace-split word count up to that count plus four,
enumerated by increasing size then increasing offset; (2) when the document
has words and some window meets `min_similarity`, the emitted span is the
FIRST enumerated window attaining the maximum similarity — strictly greater
similarity replaces the running best, ties keep the earlier window — and its
`text` is the document slice at the window's offsets, preserving the
original spacing and casing; (3) when no window meets `min_similarity`, a
`not_found` entry is emitted. -/
theorem fuzzy_best_window (simFn : List Char → List Char → ℚ)
    (minSim : ℚ) (cs : Bool) (text ev : List Char) (hms : 0 < minSim)
    (hnoexact : findSub (evNormOf cs ev) (normText cs text) = none) :
    (∀ w, w ∈ docWindows cs text ev ↔ ∃ ws i, wordCount cs ev ≤ ws ∧
      ws < wordCount cs ev + 5 ∧ i + ws ≤ (tokenize text).length ∧
      w = mkWindow (tokenize text) i ws) ∧
    (¬ (tokenize text).isEmpty →
      (∃ w ∈ docWindows cs text ev, minSim ≤ evWindowSim simFn cs text ev w) →
      ∃ wins1 w wins2, docWindows cs text ev = wins1 ++ w :: wins2 ∧
        annotateOne simFn minSim cs text ev =
          ⟨sliceL text w.1 w.2, some w.1, some w.2,
            evWindowSim simFn cs text ev w, .fuzzy⟩ ∧
        minSim ≤ evWindowSim simFn cs text ev w ∧
        (∀ w' ∈ docWindows cs text ev,
          evWindowSim simFn cs text ev w' ≤ evWindowSim simFn cs text ev w) ∧
        (∀ w' ∈ wins1, evWindowSim simFn cs text ev w' < minSim ∨
          evWindowSim simFn cs text ev w' < evWindowSim simFn cs text ev w)) ∧
    ((∀ w ∈ docWindows cs text ev, evWindowSim simFn cs text ev w < minSim) →
      annotateOne simFn minSim cs text ev =
        ⟨stripL ev, none, none, 0, .notFound⟩) := by
  refine ⟨fun w => windowsOf_mem _ _ w, ?_, ?_⟩
  · intro hwl hex
    obtain ⟨w, hw⟩ := selectBest_complete (evWindowSim simFn cs text ev)
      minSim (docWindows cs text ev) hms hex
    rcases selectBest_first_max (evWindowSim simFn cs text ev) minSim
        (docWindows cs text ev) none 0 w hw with heq | hdec
    · cases heq
    · obtain ⟨wins1, wins2, hdec, _, hms', hall⟩ := hdec
      refine ⟨wins1, w, wins2, hdec, ?_, hms', ?_, hall⟩
      · rw [annotateOne_of_noexact simFn minSim cs text ev hnoexact,
          if_neg hwl, hw]
      · intro w' hw'
        rcases selectBest_max (evWindowSim simFn cs text ev) minSim
            (docWindows cs text ev) (none, 0) w' hw' with hle | hlt
        · have hval := selectBest_val (evWindowSim simFn cs text ev) minSim
            (docWindows cs text ev) none 0 w (fun w0 he => by cases he) hw
          rw [hval] at hle
          exact hle
        · exact le_of_lt (lt_of_lt_of_le hlt hms')
  · intro hall
    rw [annotateOne_of_noexact simFn minSim cs text ev hnoexact]
    by_cases hwl : (tokenize text).isEmpty
    · rw [if_pos hwl]
    · rw [if_neg hwl]
      rw [selectBest_of_all_lt (evWindowSim simFn cs text ev) minSim
        (docWindows cs text ev) (none, 0) hall]

/-- Witness for C6: the evidence `"xy  zw"` (double space, hence no exact
substring match in `"xy zw"`) is fuzzy-matched by the single 2-word window
of the document. -/
theorem fuzzy_best_window_witness :
    (0 : ℚ) < 1 ∧
    findSub (evNormOf false "xy  zw".toList)
      (normText false "xy zw".toList) = none ∧
    ¬ (tokenize "xy zw".toList).isEmpty ∧
    (∃ w ∈ docWindows false "xy zw".toList "xy  zw".toList,
      (1 : ℚ) ≤ evWindowSim toyWindowSim false "xy zw".toList
        "xy  zw".toList w) ∧
    (∃ wins1 w wins2,
      docWindows false "xy zw".toList "xy  zw".toList =
        wins1 ++ w :: wins2 ∧
      annotateOne toyWindowSim 1 false "xy zw".toList "xy  zw".toList =
        ⟨sliceL "xy zw".toList w.1 w.2, some w.1, some w.2,
          evWindowSim toyWindowSim false "xy zw".toList "xy  zw".toList w,
          .fuzzy⟩ ∧
      (1 : ℚ) ≤ evWindowSim toyWindowSim false "xy zw".toList
        "xy  zw".toList w ∧
      (∀ w' ∈ docWindows false "xy zw".toList "xy  zw".toList,
        evWindowSim toyWindowSim false "xy zw".toList "xy  zw".toList w' ≤
          evWindowSim toyWindowSim false "xy zw".toList "xy  zw".toList w) ∧
      (∀ w' ∈ wins1,
        evWindowSim toyWindowSim false "xy zw".toList "xy  zw".toList w' <
            1 ∨
          evWindowSim toyWindowSim false "xy zw".toList "xy  zw".toList w' <
            evWindowSim toyWindowSim false "xy zw".toList
              "xy  zw".toList w)) :=
  ⟨by decide, by decide, by decide, by decide,
    (fuzzy_best_window toyWindowSim 1 false "xy zw".toList "xy  zw".toList
      (by decide) (by decide)).2.1 (by decide) (by decide)⟩

end Coda
